import Mathlib

/-!
# Single Threaded Networking: framing, Channel, Server and Client

A shallow embedding of `lib/networking/TransferMessage.h`, `lib/networking/Server.cpp`,
`lib/networking/Client.cpp` and the two public headers, followed by the properties
proved about it.

Conventions of the embedding:
* a `std::string` and the readable bytes of a stream buffer are `List Char`;
* a `std::deque` is a `List`, front first;
* an asynchronous operation is a piece of state (the operation is outstanding) and
  a function for its completion handler, run by the environment with an error flag
  (`true` when the `errorCode` of the C++ handler is set).
-/

namespace Networking

/-! ## TransferMessage.h -/

/-- Bytes of a `std::string`. -/
abbrev Text := List Char

/-- The constant `MESSAGE_DELIMITER`. -/
def MESSAGE_DELIMITER : Char := '\r'

/-- The function `ensureMessageTerminator`, returning the string it leaves in
`message`. `message.back()` is `getLast?`. On an empty string, where the value of
`back()` is not defined by the language, the byte read is taken not to be the
delimiter, which is what a default build reads, so the delimiter is appended;
both callers return on an empty string before the call. -/
def ensureMessageTerminator (message : Text) : Text :=
  if message.getLast? ≠ some MESSAGE_DELIMITER then message ++ [MESSAGE_DELIMITER]
  else message

/-- The call `std::getline(is, message, delim)` on a fresh `std::istream` over a
stream buffer whose readable bytes are the argument: bytes are moved to `message`
until the buffer is exhausted or the next byte is `delim`, which is taken out of
the buffer and not stored. Returns `message` and the bytes left in the buffer. -/
def getline (delim : Char) : List Char → Text × List Char
  | [] => ([], [])
  | c :: rest =>
    if c = delim then ([], rest)
    else ((c :: (getline delim rest).1), (getline delim rest).2)

/-- The function `extractMessage`: the returned string, and the readable bytes
left in `buffer`. -/
def extractMessage (buffer : List Char) : Text × List Char :=
  getline MESSAGE_DELIMITER buffer

/-! ## Server.h: Connection, Message -/

/-- The struct `Connection`; `id` is a `uintptr_t`, only ever compared. -/
structure Connection where
  id : Nat
deriving DecidableEq, Repr

/-- The struct `Message`. -/
structure Message where
  connection : Connection
  text : Text
deriving DecidableEq, Repr

/-! ## Server.cpp: Server::Channel -/

/-- The constant `Server::Channel::BUFFER_SIZE`, the maximum size given to
`streamBuf`. -/
def BUFFER_SIZE : Nat := 256

/-- The class `Server::Channel`. `socketOpen` is the state of `socket`,
`streamBuf` the readable bytes of the stream buffer. Two fields record the
asynchronous operations the Channel has outstanding: `writesInFlight` holds the
buffers of the `async_write` operations whose handler has not run yet, oldest
first, and `readArmed` says whether an `async_read_until` is outstanding. -/
structure Channel where
  disconnected : Bool
  connection : Connection
  socketOpen : Bool
  streamBuf : List Char
  writeBuffer : List Text
  writesInFlight : List Text
  readArmed : Bool
deriving DecidableEq, Repr

/-- The constructor of `Server::Channel` for an object placed at `address`:
`connection` is `reinterpret_cast<uintptr_t>(this)`. -/
def Channel.new (address : Nat) : Channel :=
  { disconnected := false
    connection := ⟨address⟩
    socketOpen := false
    streamBuf := []
    writeBuffer := []
    writesInFlight := []
    readArmed := false }

/-- The arming part of `Server::Channel::readLine`: an `async_read_until` is
issued. -/
def Channel.readLine (ch : Channel) : Channel :=
  { ch with readArmed := true }

/-- The method `Server::Channel::start`. -/
def Channel.start (ch : Channel) : Channel :=
  ch.readLine

/-- The method `Server::Channel::disconnect`; `socket.cancel()` and
`socket.close()` leave the socket closed. -/
def Channel.disconnect (ch : Channel) : Channel :=
  { ch with disconnected := true, socketOpen := false }

/-- The method `Server::Channel::send` up to the point where the write is issued:
the guard on the empty string, `ensureMessageTerminator`, `push_back`, and an
`async_write` on `writeBuffer.back()`. -/
def Channel.send (ch : Channel) (outgoing : Text) : Channel :=
  if outgoing.isEmpty then ch
  else
    let writeBuffer := ch.writeBuffer ++ [ensureMessageTerminator outgoing]
    { ch with
      writeBuffer := writeBuffer
      writesInFlight := ch.writesInFlight ++ writeBuffer.getLast?.toList }

/-! ## Server.h / Server.cpp: Server -/

/-- A call received by the `ConnectionHandler` of a Server. -/
inductive HandlerCall where
  | handleConnect (c : Connection)
  | handleDisconnect (c : Connection)
deriving DecidableEq, Repr

/-- The class `Server`. `heap` holds the `Channel` objects alive, by address (a
Channel is kept alive by the `shared_ptr`s of the registry and of its handlers);
`channels` is the `ChannelMap`, from a Connection to the address its `shared_ptr`
points to; `handlerCalls` lists the calls made to `connectionHandler`, oldest
first. -/
structure Server where
  heap : Nat → Option Channel
  channels : Connection → Option Nat
  incoming : List Message
  handlerCalls : List HandlerCall

/-- A Server with no Channel, as left by the constructor. -/
def Server.init : Server :=
  { heap := fun _ => none
    channels := fun _ => none
    incoming := []
    handlerCalls := [] }

/-- Stores `ch` as the state of the Channel object at `address`. -/
def Server.setChannel (s : Server) (address : Nat) (ch : Channel) : Server :=
  { s with heap := fun q => if q = address then some ch else s.heap q }

/-- The method `Server::receive`: the returned deque and the Server after it.
(`Server::update` is `ioService.poll()`: it runs the handlers of the operations
that are ready, which are the functions further down.) -/
def Server.receive (s : Server) : List Message × Server :=
  (s.incoming, { s with incoming := [] })

/-- The call `found->second->send(message.text)` on the Channel at `address`. -/
def Server.channelSend (s : Server) (address : Nat) (text : Text) : Server :=
  match s.heap address with
  | none => s
  | some ch => s.setChannel address (ch.send text)

/-- The method `Server::send`. -/
def Server.send (s : Server) : List Message → Server
  | [] => s
  | message :: rest =>
    match s.channels message.connection with
    | some address => (s.channelSend address message.text).send rest
    | none => s.send rest

/-- The method `Server::disconnect`. The callback is recorded as a call; it is
user code and is taken not to call back into the Server. -/
def Server.disconnect (s : Server) (connection : Connection) : Server :=
  match s.channels connection with
  | none => s
  | some address =>
    { heap := fun q =>
        if q = address then (s.heap address).map Channel.disconnect else s.heap q
      channels := fun c => if c = connection then none else s.channels c
      incoming := s.incoming
      handlerCalls := s.handlerCalls ++ [HandlerCall.handleDisconnect connection] }

/-- The handler given to `async_accept` in `Server::listenForConnections`, for a
`newChannel` allocated at `address`. The re-arming of the accept is not state of
the model: an accept is always outstanding. -/
def Server.onAccept (s : Server) (address : Nat) (errorCode : Bool) : Server :=
  if !errorCode then
    let newChannel := { Channel.new address with socketOpen := true }
    let connection := newChannel.connection
    { heap := fun q => if q = address then some newChannel.start else s.heap q
      channels := fun c => if c = connection then some address else s.channels c
      incoming := s.incoming
      handlerCalls := s.handlerCalls ++ [HandlerCall.handleConnect connection] }
  else s

/-- The handler given to `async_write` in `Server::Channel::send`, run for the
Channel at `address`. `pop_front` is `List.tail`. -/
def Server.onWrite (s : Server) (address : Nat) (errorCode : Bool) : Server :=
  match s.heap address with
  | none => s
  | some ch =>
    if !errorCode then
      s.setChannel address { ch with writeBuffer := ch.writeBuffer.tail }
    else if !ch.disconnected then s.disconnect ch.connection
    else s

/-- The handler given to `async_read_until` in `Server::Channel::readLine`, run
for the Channel at `address`. -/
def Server.onRead (s : Server) (address : Nat) (errorCode : Bool) : Server :=
  match s.heap address with
  | none => s
  | some ch =>
    if !errorCode then
      let extracted := extractMessage ch.streamBuf
      { s with
        heap := fun q =>
          if q = address then some ({ ch with streamBuf := extracted.2 }).readLine
          else s.heap q
        incoming := s.incoming ++ [⟨ch.connection, extracted.1⟩] }
    else if !ch.disconnected then s.disconnect ch.connection
    else s

/-- Completion of an outstanding `async_write` of the Channel at `address`, the
one at position `index` of `writesInFlight` (position 0 is the oldest): the
operation is no longer outstanding and its handler runs. Several writes can be
outstanding on the one socket, and nothing in the code or in Boost.Asio fixes
the order in which their handlers run, so any position can complete. -/
def Server.completeWrite (s : Server) (address : Nat) (index : Nat)
    (errorCode : Bool) : Server :=
  match s.heap address with
  | none => s
  | some ch =>
    if index < ch.writesInFlight.length then
      (s.setChannel address
        { ch with writesInFlight := ch.writesInFlight.eraseIdx index }).onWrite
          address errorCode
    else s

/-- Completion of the outstanding `async_read_until` of the Channel at `address`. -/
def Server.completeRead (s : Server) (address : Nat) (ch : Channel)
    (errorCode : Bool) : Server :=
  (s.setChannel address { ch with readArmed := false }).onRead address errorCode

/-- One step of the outstanding `async_read_until(socket, streamBuf,
MESSAGE_DELIMITER, ...)` of the Channel at `address`, as Boost.Asio documents the
operation for a stream buffer with a maximum size. `wire` holds the bytes the
peer has sent and the Channel has not read yet; `n` is the number of bytes the
next read on the socket may transfer.
* No operation is outstanding: nothing happens.
* The socket was closed: the operation completes with an error.
* The buffer holds a delimiter: the operation completes without error.
* The buffer is full (`BUFFER_SIZE` bytes) and holds no delimiter: the operation
  completes with the error `not_found`.
* Otherwise at most `n` bytes, and no more than fit, move from `wire` to the
  buffer, and the operation stays outstanding. -/
def Server.readStep (s : Server) (address : Nat) (n : Nat) (wire : List Char) :
    Server × List Char :=
  match s.heap address with
  | none => (s, wire)
  | some ch =>
    if !ch.readArmed then (s, wire)
    else if !ch.socketOpen then (s.completeRead address ch true, wire)
    else if MESSAGE_DELIMITER ∈ ch.streamBuf then (s.completeRead address ch false, wire)
    else if BUFFER_SIZE ≤ ch.streamBuf.length then (s.completeRead address ch true, wire)
    else
      let k := min n (BUFFER_SIZE - ch.streamBuf.length)
      (s.setChannel address { ch with streamBuf := ch.streamBuf ++ wire.take k },
        wire.drop k)

/-- The read loop of the Channel at `address` run for one step per entry of
`sizes`, each entry being the transfer size offered to that step. -/
def Server.readLoop (address : Nat) : List Nat → Server × List Char → Server × List Char
  | [], st => st
  | n :: sizes, st => Server.readLoop address sizes (st.1.readStep address n st.2)

/-- The bytes a peer puts on the wire for the texts `messages`, each followed by
the delimiter, and then the bytes `rest` of a text it has not finished. -/
def wireBytes (messages : List Text) (rest : Text) : List Char :=
  (messages.map (fun m => m ++ [MESSAGE_DELIMITER])).flatten ++ rest

/-- The states a Server reaches from its constructed state through accepted
connections, its public methods, and the progress and completion of the reads and
writes of its Channels. With `issueOrder` set, the writes of a Channel complete
in the order they were issued; without it they complete in any order. -/
inductive Server.Reachable (issueOrder : Bool) : Server → Prop where
  | init : Server.Reachable issueOrder Server.init
  | onAccept {s : Server} (address : Nat) (errorCode : Bool) :
      Server.Reachable issueOrder s →
      Server.Reachable issueOrder (s.onAccept address errorCode)
  | send {s : Server} (messages : List Message) :
      Server.Reachable issueOrder s → Server.Reachable issueOrder (s.send messages)
  | receive {s : Server} :
      Server.Reachable issueOrder s → Server.Reachable issueOrder s.receive.2
  | disconnect {s : Server} (connection : Connection) :
      Server.Reachable issueOrder s →
      Server.Reachable issueOrder (s.disconnect connection)
  | completeWrite {s : Server} (address : Nat) (index : Nat) (errorCode : Bool) :
      (issueOrder = true → index = 0) → Server.Reachable issueOrder s →
      Server.Reachable issueOrder (s.completeWrite address index errorCode)
  | readStep {s : Server} (address : Nat) (n : Nat) (wire : List Char) :
      Server.Reachable issueOrder s →
      Server.Reachable issueOrder (s.readStep address n wire).1

/-- Every Channel object of the Server has its outstanding writes and its
outbound FIFO related by `R`. -/
def Server.WritesRelated (R : List Text → List Text → Prop) (s : Server) : Prop :=
  ∀ p ch, s.heap p = some ch → R ch.writesInFlight ch.writeBuffer

/-! ## Client.h / Client.cpp: Client -/

/-- A candidate endpoint produced by the resolver. -/
structure Endpoint where
  id : Nat
deriving DecidableEq, Repr

/-- The class `Client`. `socketOpen` is the state of `socket`, `readBuffer` the
readable bytes of the stream buffer, `incomingMessage` the contents of the
`std::ostringstream`. The outstanding operations are recorded as for a Channel,
together with `connectPending`, the candidates of an outstanding
`async_connect`. -/
structure Client where
  isClosed : Bool
  socketOpen : Bool
  readBuffer : List Char
  incomingMessage : List Char
  writeBuffer : List Text
  writesInFlight : List Text
  readArmed : Bool
  connectPending : Option (List Endpoint)
deriving DecidableEq, Repr

/-- The method `Client::connect`: an `async_connect` over the candidates is
issued. -/
def Client.connect (c : Client) (endpoint : List Endpoint) : Client :=
  { c with connectPending := some endpoint }

/-- The constructor `Client::Client(address, port)`. `resolved` is the outcome of
`resolver.resolve({address, port})`: `none` when it throws, which ends the
constructor, and the candidate endpoints otherwise. The result is `none` when the
constructor throws. -/
def Client.new (resolved : Option (List Endpoint)) : Option Client :=
  match resolved with
  | none => none
  | some endpoints =>
    some (Client.connect
      { isClosed := false
        socketOpen := false
        readBuffer := []
        incomingMessage := []
        writeBuffer := []
        writesInFlight := []
        readArmed := false
        connectPending := none } endpoints)

/-- The method `Client::isDisconnected`. -/
def Client.isDisconnected (c : Client) : Bool :=
  c.isClosed

/-- The method `Client::disconnect`. -/
def Client.disconnect (c : Client) : Client :=
  { c with isClosed := true, socketOpen := false }

/-- The arming part of `Client::readMessage`: an `async_read_until` is issued. -/
def Client.readMessage (c : Client) : Client :=
  { c with readArmed := true }

/-- The method `Client::send` up to the point where the write is issued. -/
def Client.send (c : Client) (message : Text) : Client :=
  if message.isEmpty then c
  else
    let writeBuffer := c.writeBuffer ++ [ensureMessageTerminator message]
    { c with
      writeBuffer := writeBuffer
      writesInFlight := c.writesInFlight ++ writeBuffer.getLast?.toList }

/-- The method `Client::receive`: the returned string and the Client after it. -/
def Client.receive (c : Client) : Text × Client :=
  (c.incomingMessage, { c with incomingMessage := [] })

/-- The handler given to `async_connect` in `Client::connect`. -/
def Client.onConnect (c : Client) (errorCode : Bool) : Client :=
  if !errorCode then c.readMessage else c

/-- The handler given to `async_write` in `Client::send`. -/
def Client.onWrite (c : Client) (errorCode : Bool) : Client :=
  if !errorCode then { c with writeBuffer := c.writeBuffer.tail }
  else c.disconnect

/-- The handler given to `async_read_until` in `Client::readMessage`. -/
def Client.onRead (c : Client) (errorCode : Bool) (size : Nat) : Client :=
  if !errorCode then
    if size > 0 then
      let extracted := extractMessage c.readBuffer
      ({ c with
          readBuffer := extracted.2
          incomingMessage := c.incomingMessage ++ extracted.1 }).readMessage
    else c
  else c.disconnect

/-- Completion of the outstanding `async_connect`: the candidates are tried in
order, `reachable` telling which of them accept the connection; the handler gets
an error when none does. -/
def Client.completeConnect (c : Client) (reachable : Endpoint → Bool) : Client :=
  match c.connectPending with
  | none => c
  | some endpoints =>
    let connected := endpoints.any reachable
    ({ c with connectPending := none, socketOpen := connected }).onConnect (!connected)

/-- Completion of an outstanding `async_write` of the Client, the one at position
`index` of `writesInFlight` (position 0 is the oldest): the operation is no longer
outstanding and its handler runs. Several writes can be outstanding on the one
socket, and nothing in the code or in Boost.Asio fixes the order in which their
handlers run, so any position can complete. -/
def Client.completeWrite (c : Client) (index : Nat) (errorCode : Bool) : Client :=
  if index < c.writesInFlight.length then
    ({ c with writesInFlight := c.writesInFlight.eraseIdx index }).onWrite errorCode
  else c

/-- Completion of the outstanding `async_read_until` of the Client; `size` is the
`bytes_transferred` argument of the handler. -/
def Client.completeRead (c : Client) (errorCode : Bool) (size : Nat) : Client :=
  ({ c with readArmed := false }).onRead errorCode size

/-- One step of the outstanding `async_read_until(socket, readBuffer,
MESSAGE_DELIMITER, ...)` of the Client, as Boost.Asio documents the operation.
`readBuffer` is default-constructed and so has no maximum size of its own. `wire`
holds the bytes the Server has sent and the Client has not read yet; `n` is the
number of bytes the next read on the socket may transfer.
* No operation is outstanding: nothing happens.
* The socket was closed: the operation completes with an error and size 0.
* The buffer holds a delimiter: the operation completes without error, its size
  the number of bytes up to and including the first delimiter.
* Otherwise at most `n` bytes move from `wire` to the buffer, and the operation
  stays outstanding. -/
def Client.readStep (c : Client) (n : Nat) (wire : List Char) : Client × List Char :=
  if !c.readArmed then (c, wire)
  else if !c.socketOpen then (c.completeRead true 0, wire)
  else if MESSAGE_DELIMITER ∈ c.readBuffer then
    (c.completeRead false ((extractMessage c.readBuffer).1.length + 1), wire)
  else ({ c with readBuffer := c.readBuffer ++ wire.take n }, wire.drop n)

/-- The read loop of the Client run for one step per entry of `sizes`, each entry
being the transfer size offered to that step. -/
def Client.readLoop : List Nat → Client × List Char → Client × List Char
  | [], st => st
  | n :: sizes, st => Client.readLoop sizes (st.1.readStep n st.2)

/-- The states a Client reaches from a successful construction through `send`,
`receive`, the completion of its connect and of its writes, and the progress and
completion of its reads. With `issueOrder` set, the writes complete in the order
they were issued; without it they complete in any order. -/
inductive Client.Reachable (issueOrder : Bool) : Client → Prop where
  | new {c : Client} (resolved : Option (List Endpoint)) :
      Client.new resolved = some c → Client.Reachable issueOrder c
  | send {c : Client} (message : Text) :
      Client.Reachable issueOrder c → Client.Reachable issueOrder (c.send message)
  | receive {c : Client} :
      Client.Reachable issueOrder c → Client.Reachable issueOrder c.receive.2
  | completeConnect {c : Client} (reachable : Endpoint → Bool) :
      Client.Reachable issueOrder c →
      Client.Reachable issueOrder (c.completeConnect reachable)
  | completeWrite {c : Client} (index : Nat) (errorCode : Bool) :
      (issueOrder = true → index = 0) → Client.Reachable issueOrder c →
      Client.Reachable issueOrder (c.completeWrite index errorCode)
  | onRead {c : Client} (errorCode : Bool) (size : Nat) :
      Client.Reachable issueOrder c →
      Client.Reachable issueOrder (c.onRead errorCode size)
  | readStep {c : Client} (n : Nat) (wire : List Char) :
      Client.Reachable issueOrder c →
      Client.Reachable issueOrder (c.readStep n wire).1

/-! ## Properties of the framing functions -/

theorem getline_append_delim (delim : Char) (pre post : List Char) (h : delim ∉ pre) :
    getline delim (pre ++ delim :: post) = (pre, post) := by
  induction pre with
  | nil => simp [getline]
  | cons c cs ih =>
    have hc : c ≠ delim := fun e => h (by simp [e])
    have hcs : delim ∉ cs := fun e => h (by simp [e])
    simp [getline, hc, ih hcs]

theorem getline_no_delim (delim : Char) (buffer : List Char) (h : delim ∉ buffer) :
    getline delim buffer = (buffer, []) := by
  induction buffer with
  | nil => simp [getline]
  | cons c cs ih =>
    have hc : c ≠ delim := fun e => h (by simp [e])
    have hcs : delim ∉ cs := fun e => h (by simp [e])
    simp [getline, hc, ih hcs]

theorem getline_fst_no_delim (delim : Char) (buffer : List Char) :
    delim ∉ (getline delim buffer).1 := by
  induction buffer with
  | nil => simp [getline]
  | cons c cs ih =>
    by_cases hc : c = delim
    · simp [getline, hc]
    · simp only [getline, hc, if_false, List.mem_cons, not_or]
      exact ⟨fun e => hc e.symm, ih⟩

theorem getline_split (delim : Char) (buffer : List Char) (h : delim ∈ buffer) :
    buffer = (getline delim buffer).1 ++ delim :: (getline delim buffer).2 := by
  induction buffer with
  | nil => simp at h
  | cons c cs ih =>
    by_cases hc : c = delim
    · simp [getline, hc]
    · have hcs : delim ∈ cs := by
        rcases List.mem_cons.mp h with e | e
        · exact absurd e.symm hc
        · exact e
      simp only [getline, hc, if_false, List.cons_append, List.cons.injEq, true_and]
      exact ih hcs

theorem ensureMessageTerminator_of_no_delim (t : Text) (h : MESSAGE_DELIMITER ∉ t) :
    ensureMessageTerminator t = t ++ [MESSAGE_DELIMITER] := by
  have hlast : t.getLast? ≠ some MESSAGE_DELIMITER :=
    fun e => h (List.mem_of_getLast?_eq_some e)
  simp [ensureMessageTerminator, hlast]

theorem readStep_transfer (s : Server) (p n : Nat) (wire : List Char) (ch : Channel)
    (hch : s.heap p = some ch) (harm : ch.readArmed = true) (hopen : ch.socketOpen = true)
    (hd : MESSAGE_DELIMITER ∉ ch.streamBuf) (hroom : ch.streamBuf.length < BUFFER_SIZE) :
    s.readStep p n wire =
      (s.setChannel p { ch with streamBuf :=
          (ch.streamBuf ++ wire.take (min n (BUFFER_SIZE - ch.streamBuf.length))) },
        wire.drop (min n (BUFFER_SIZE - ch.streamBuf.length))) := by
  have : ¬ BUFFER_SIZE ≤ ch.streamBuf.length := by omega
  simp [Server.readStep, hch, harm, hopen, hd, this]


/-- Claim C1. For every text with no delimiter byte, `ensureMessageTerminator`
yields the text followed by one delimiter, and `extractMessage` on a buffer
holding exactly that frame returns the text and leaves the buffer empty. For the
empty text, which the `send` methods frame as no bytes at all, `extractMessage`
on the empty buffer returns the empty text as well. -/
theorem extract_frame_roundtrip (t : Text) (h : MESSAGE_DELIMITER ∉ t) :
    ensureMessageTerminator t = t ++ [MESSAGE_DELIMITER] ∧
      extractMessage (ensureMessageTerminator t) = (t, []) ∧
      (t = [] → extractMessage [] = (t, [])) := by
  have hf := ensureMessageTerminator_of_no_delim t h
  refine ⟨hf, ?_, ?_⟩
  · rw [hf]
    exact getline_append_delim MESSAGE_DELIMITER t [] h
  · intro h0
    subst h0
    rfl

/-- Witness for C1: the text "hi". -/
theorem extract_frame_roundtrip_witness :
    ensureMessageTerminator ['h', 'i'] = ['h', 'i', '\r'] ∧
      extractMessage (ensureMessageTerminator ['h', 'i']) = (['h', 'i'], []) :=
  ⟨(extract_frame_roundtrip ['h', 'i'] (by decide)).1,
    (extract_frame_roundtrip ['h', 'i'] (by decide)).2.1⟩

/-- Claim C2. For every buffer that holds a delimiter byte, the message returned
by `extractMessage` has no delimiter in it, and the buffer was that message, then
one delimiter, then exactly the bytes `extractMessage` leaves in the buffer: the
message is the bytes before the first delimiter and what stays is what followed
it, in the same order. -/
theorem extractMessage_first_delimiter (buffer : List Char)
    (h : MESSAGE_DELIMITER ∈ buffer) :
    MESSAGE_DELIMITER ∉ (extractMessage buffer).1 ∧
      buffer = (extractMessage buffer).1 ++ MESSAGE_DELIMITER :: (extractMessage buffer).2 :=
  ⟨getline_fst_no_delim MESSAGE_DELIMITER buffer, getline_split MESSAGE_DELIMITER buffer h⟩

/-- Witness for C2: the buffer "ab\rcd\re". -/
theorem extractMessage_first_delimiter_witness :
    MESSAGE_DELIMITER ∉ (extractMessage ['a', 'b', '\r', 'c', 'd', '\r', 'e']).1 ∧
      ['a', 'b', '\r', 'c', 'd', '\r', 'e'] =
        (extractMessage ['a', 'b', '\r', 'c', 'd', '\r', 'e']).1 ++
          MESSAGE_DELIMITER :: (extractMessage ['a', 'b', '\r', 'c', 'd', '\r', 'e']).2 :=
  extractMessage_first_delimiter ['a', 'b', '\r', 'c', 'd', '\r', 'e'] (by decide)

/-- Claim C3, as amended. For every buffer with no delimiter byte,
`extractMessage` returns all the bytes of the buffer as its message and leaves the
buffer empty. A Server Channel does not call it on such an accumulator: while the
accumulator holds no delimiter and is not full, a step of the outstanding read
appends nothing to the inbound queue and leaves the accumulated bytes in place,
followed by the bytes it has just read. -/
theorem extractMessage_no_delimiter (buffer : List Char)
    (h : MESSAGE_DELIMITER ∉ buffer) :
    extractMessage buffer = (buffer, []) ∧
      ∀ (s : Server) (address n : Nat) (wire : List Char) (ch : Channel),
        s.heap address = some ch → ch.streamBuf = buffer → ch.readArmed = true →
        ch.socketOpen = true → buffer.length < BUFFER_SIZE →
        (s.readStep address n wire).1.incoming = s.incoming ∧
          ((s.readStep address n wire).1.heap address).map Channel.streamBuf =
            some (buffer ++ wire.take (min n (BUFFER_SIZE - buffer.length))) := by
  refine ⟨getline_no_delim MESSAGE_DELIMITER buffer h, ?_⟩
  intro s address n wire ch hch hbuf harm hopen hroom
  subst hbuf
  rw [readStep_transfer s address n wire ch hch harm hopen h hroom]
  exact ⟨rfl, by simp [Server.setChannel]⟩

/-- Witness for C3: the buffer "ab", alone and as the accumulator of a Channel to
which "c" and a delimiter arrive in one transfer. -/
theorem extractMessage_no_delimiter_witness :
    extractMessage ['a', 'b'] = (['a', 'b'], []) ∧
      ((Server.init.onAccept 7 false).readStep 7 2 ['a', 'b', 'c', '\r']).1.incoming = [] ∧
      ((((Server.init.onAccept 7 false).readStep 7 2 ['a', 'b', 'c', '\r']).1.readStep 7 2
          ['c', '\r']).1.heap 7).map Channel.streamBuf = some ['a', 'b', 'c', '\r'] := by
  have h := extractMessage_no_delimiter ['a', 'b'] (by decide)
  refine ⟨h.1, by decide, ?_⟩
  have h2 := (h.2 ((Server.init.onAccept 7 false).readStep 7 2 ['a', 'b', 'c', '\r']).1
    7 2 ['c', '\r']
    { (Channel.new 7).start with socketOpen := true, streamBuf := ['a', 'b'] }
    (by decide) rfl rfl rfl (by decide)).2
  rw [h2]
  decide

/-- Counterexample for C3 as stated: the buffer "ab" has no delimiter byte, yet
`extractMessage` returns the message "ab" and the buffer is left empty, not
unchanged. -/
theorem extractMessage_partial_consumed :
    MESSAGE_DELIMITER ∉ ['a', 'b'] ∧
      (extractMessage ['a', 'b']).1 = ['a', 'b'] ∧
      (extractMessage ['a', 'b']).2 = [] ∧
      (extractMessage ['a', 'b']).2 ≠ ['a', 'b'] := by
  decide


theorem wireBytes_cons (m : Text) (ms : List Text) (rest : Text) :
    wireBytes (m :: ms) rest = m ++ MESSAGE_DELIMITER :: wireBytes ms rest := by
  simp [wireBytes]

theorem split_unique (d : Char) (pre m x y : List Char) (hpre : d ∉ pre) (hm : d ∉ m)
    (h : pre ++ d :: x = m ++ d :: y) : pre = m ∧ x = y := by
  have h1 := getline_append_delim d pre x hpre
  have h2 := getline_append_delim d m y hm
  rw [h] at h1
  rw [h1] at h2
  simpa using h2

theorem buffered_length_le (d : Char) (buf wire m w : List Char) (hbuf : d ∉ buf)
    (h : buf ++ wire = m ++ d :: w) : buf.length ≤ m.length := by
  rcases List.append_eq_append_iff.mp h with ⟨a, hm, -⟩ | ⟨c, hb, hc⟩
  · simp [hm]
  · cases c with
    | nil => simp [hb]
    | cons x xs =>
      simp only [List.cons_append, List.cons.injEq] at hc
      exact absurd (by simp [hb, ← hc.1]) hbuf

theorem readStep_unarmed (s : Server) (p n : Nat) (wire : List Char) (ch : Channel)
    (h : s.heap p = some ch) (ha : ch.readArmed = false) :
    s.readStep p n wire = (s, wire) := by
  simp [Server.readStep, h, ha]

theorem readLoop_unarmed (p : Nat) (sizes : List Nat) :
    ∀ (s : Server) (wire : List Char) (ch : Channel), s.heap p = some ch →
      ch.readArmed = false → Server.readLoop p sizes (s, wire) = (s, wire) := by
  induction sizes with
  | nil => intros; rfl
  | cons n ns ih =>
    intro s wire ch h ha
    simp only [Server.readLoop, readStep_unarmed s p n wire ch h ha]
    exact ih s wire ch h ha

theorem disconnect_heap_readArmed (s : Server) (c : Connection) (p : Nat) (ch : Channel)
    (h : s.heap p = some ch) :
    ∃ ch2, (s.disconnect c).heap p = some ch2 ∧ ch2.readArmed = ch.readArmed ∧
      (s.disconnect c).incoming = s.incoming := by
  unfold Server.disconnect
  cases hc : s.channels c with
  | none => exact ⟨ch, h, rfl, rfl⟩
  | some a =>
    by_cases hp : p = a
    · subst hp
      exact ⟨ch.disconnect, by simp [h], rfl, rfl⟩
    · exact ⟨ch, by simp [hp, h], rfl, rfl⟩


theorem readStep_delimiter (s : Server) (p n : Nat) (wire : List Char) (ch : Channel)
    (hch : s.heap p = some ch) (harm : ch.readArmed = true) (hopen : ch.socketOpen = true)
    (hd : MESSAGE_DELIMITER ∈ ch.streamBuf) :
    (s.readStep p n wire).2 = wire ∧
      (s.readStep p n wire).1.incoming =
        s.incoming ++ [⟨ch.connection, (extractMessage ch.streamBuf).1⟩] ∧
      ∃ ch2, (s.readStep p n wire).1.heap p = some ch2 ∧ ch2.readArmed = true ∧
        ch2.socketOpen = true ∧ ch2.connection = ch.connection ∧
        ch2.streamBuf = (extractMessage ch.streamBuf).2 := by
  simp [Server.readStep, hch, harm, hopen, hd, Server.completeRead, Server.setChannel,
    Server.onRead, Channel.readLine]

theorem onRead_error (s : Server) (p : Nat) (ch : Channel) (hch : s.heap p = some ch) :
    (s.onRead p true).incoming = s.incoming ∧
      ∃ ch2, (s.onRead p true).heap p = some ch2 ∧ ch2.readArmed = ch.readArmed := by
  obtain ⟨ch2, e1, e2, e3⟩ := disconnect_heap_readArmed s ch.connection p ch hch
  unfold Server.onRead
  rw [hch]
  cases hdis : ch.disconnected
  · exact ⟨by simpa [hdis] using e3, ch2, by simpa [hdis] using e1, e2⟩
  · exact ⟨by simp [hdis], ch, by simpa [hdis] using hch, rfl⟩

theorem readStep_full (s : Server) (p n : Nat) (wire : List Char) (ch : Channel)
    (hch : s.heap p = some ch) (harm : ch.readArmed = true) (hopen : ch.socketOpen = true)
    (hd : MESSAGE_DELIMITER ∉ ch.streamBuf) (hfull : BUFFER_SIZE ≤ ch.streamBuf.length) :
    (s.readStep p n wire).2 = wire ∧
      (s.readStep p n wire).1.incoming = s.incoming ∧
      ∃ ch2, (s.readStep p n wire).1.heap p = some ch2 ∧ ch2.readArmed = false := by
  have h1 : (s.setChannel p { ch with readArmed := false }).heap p =
      some { ch with readArmed := false } := by simp [Server.setChannel]
  have hstep : s.readStep p n wire = (s.completeRead p ch true, wire) := by
    simp [Server.readStep, hch, harm, hopen, hd, hfull]
  obtain ⟨e1, ch2, e2, e3⟩ := onRead_error _ p _ h1
  rw [hstep]
  exact ⟨rfl, e1, ch2, e2, e3⟩

theorem readLoop_cons (p n : Nat) (ns : List Nat) (s : Server) (wire : List Char) :
    Server.readLoop p (n :: ns) (s, wire) = Server.readLoop p ns (s.readStep p n wire) :=
  rfl

theorem readLoop_delivers_aux (p : Nat) (rest : Text) (hrest : MESSAGE_DELIMITER ∉ rest)
    (sizes : List Nat) :
    ∀ (s : Server) (ch : Channel) (wire : List Char) (ms : List Text),
      s.heap p = some ch → ch.readArmed = true → ch.socketOpen = true →
      ch.streamBuf ++ wire = wireBytes ms rest →
      (∀ m ∈ ms, MESSAGE_DELIMITER ∉ m ∧ m.length < BUFFER_SIZE) →
      ∃ k, k ≤ ms.length ∧
        (Server.readLoop p sizes (s, wire)).1.incoming =
          s.incoming ++ (ms.take k).map (fun m => (⟨ch.connection, m⟩ : Message)) ∧
        ((∀ n ∈ sizes, 0 < n) → wire.length + ms.length ≤ sizes.length →
          k = ms.length) := by
  induction sizes with
  | nil =>
    intro s ch wire ms _ _ _ _ _
    refine ⟨0, Nat.zero_le _, by simp [Server.readLoop], ?_⟩
    intro _ hlen
    simp only [List.length_nil, Nat.le_zero, Nat.add_eq_zero] at hlen
    exact hlen.2.symm
  | cons n ns ih =>
    intro s ch wire ms hch harm hopen hR hms
    by_cases hd : MESSAGE_DELIMITER ∈ ch.streamBuf
    · cases ms with
      | nil =>
        exfalso
        have hmem : MESSAGE_DELIMITER ∈ wireBytes [] rest :=
          hR ▸ List.mem_append_left _ hd
        exact hrest (by simpa [wireBytes] using hmem)
      | cons m ms2 =>
        have hm := hms m (List.mem_cons_self _ _)
        have hno := getline_fst_no_delim MESSAGE_DELIMITER ch.streamBuf
        have hR2 : (getline MESSAGE_DELIMITER ch.streamBuf).1 ++ MESSAGE_DELIMITER ::
            ((getline MESSAGE_DELIMITER ch.streamBuf).2 ++ wire) =
            m ++ MESSAGE_DELIMITER :: wireBytes ms2 rest := by
          rw [← wireBytes_cons, ← hR]
          conv_rhs => rw [getline_split MESSAGE_DELIMITER ch.streamBuf hd]
          simp
        obtain ⟨e1, e2⟩ := split_unique _ _ _ _ _ hno hm.1 hR2
        obtain ⟨w1, i1, ch2, c1, c2, c3, c4, c5⟩ :=
          readStep_delimiter s p n wire ch hch harm hopen hd
        have hR3 : ch2.streamBuf ++ wire = wireBytes ms2 rest := by
          rw [c5]; exact e2
        obtain ⟨k, hk, hinc, hlive⟩ := ih (s.readStep p n wire).1 ch2 wire ms2 c1 c2 c3 hR3
          (fun x hx => hms x (List.mem_cons_of_mem _ hx))
        refine ⟨k + 1, by simpa using hk, ?_, ?_⟩
        · have hloop : Server.readLoop p (n :: ns) (s, wire) =
              Server.readLoop p ns ((s.readStep p n wire).1, wire) :=
            (readLoop_cons p n ns s wire).trans (congrArg _ (Prod.ext rfl w1))
          rw [hloop, hinc, i1, c4]
          simp [extractMessage, e1]
        · intro hpos hlen
          have := hlive (fun x hx => hpos x (List.mem_cons_of_mem _ hx))
            (by simp only [List.length_cons] at hlen; omega)
          simp [this]
    · by_cases hfull : BUFFER_SIZE ≤ ch.streamBuf.length
      · obtain ⟨w1, i1, ch2, c1, c2⟩ := readStep_full s p n wire ch hch harm hopen hd hfull
        have hms0 : ms = [] := by
          cases ms with
          | nil => rfl
          | cons m ms2 =>
            exfalso
            have hm := hms m (List.mem_cons_self _ _)
            rw [wireBytes_cons] at hR
            have := buffered_length_le _ _ _ _ _ hd hR
            omega
        refine ⟨0, Nat.zero_le _, ?_, fun _ _ => by simp [hms0]⟩
        have hloop : Server.readLoop p (n :: ns) (s, wire) =
            Server.readLoop p ns ((s.readStep p n wire).1, wire) :=
          (readLoop_cons p n ns s wire).trans (congrArg _ (Prod.ext rfl w1))
        rw [hloop, readLoop_unarmed p ns _ wire ch2 c1 c2, i1]
        simp
      · have hroom : ch.streamBuf.length < BUFFER_SIZE := by omega
        have hstep := readStep_transfer s p n wire ch hch harm hopen hd hroom
        have hloop := readLoop_cons p n ns s wire
        rw [hstep] at hloop
        obtain ⟨k, hk, hinc, hlive⟩ := ih
          (s.setChannel p { ch with streamBuf :=
            (ch.streamBuf ++ wire.take (min n (BUFFER_SIZE - ch.streamBuf.length))) })
          { ch with streamBuf :=
            (ch.streamBuf ++ wire.take (min n (BUFFER_SIZE - ch.streamBuf.length))) }
          (wire.drop (min n (BUFFER_SIZE - ch.streamBuf.length))) ms
          (by simp [Server.setChannel]) harm hopen
          (by simpa [List.append_assoc] using hR) hms
        refine ⟨k, hk, ?_, ?_⟩
        · rw [hloop, hinc]
          rfl
        · intro hpos hlen
          by_cases hms0 : ms = []
          · subst hms0
            simpa using hk
          · apply hlive (fun x hx => hpos x (List.mem_cons_of_mem _ hx))
            have hn : 0 < n := hpos n (List.mem_cons_self _ _)
            have hw : wire ≠ [] := by
              intro hw
              obtain ⟨m, ms2, rfl⟩ := List.exists_cons_of_ne_nil hms0
              rw [hw, List.append_nil, wireBytes_cons] at hR
              exact hd (by rw [hR]; simp)
            have hwl : 0 < wire.length := List.length_pos.mpr hw
            simp only [List.length_cons] at hlen
            simp only [List.length_drop]
            omega


theorem readLoop_oversized (p : Nat) (sizes : List Nat) :
    ∀ (s : Server) (ch : Channel) (wire : List Char),
      s.heap p = some ch → ch.readArmed = true → ch.socketOpen = true →
      ch.streamBuf.length ≤ BUFFER_SIZE →
      MESSAGE_DELIMITER ∉ (ch.streamBuf ++ wire).take BUFFER_SIZE →
      (Server.readLoop p sizes (s, wire)).1.incoming = s.incoming := by
  induction sizes with
  | nil => intros; rfl
  | cons n ns ih =>
    intro s ch wire hch harm hopen hlen hfree
    have hd : MESSAGE_DELIMITER ∉ ch.streamBuf := by
      intro hmem
      apply hfree
      rw [List.take_append_eq_append_take, List.take_of_length_le hlen]
      exact List.mem_append_left _ hmem
    by_cases hfull : BUFFER_SIZE ≤ ch.streamBuf.length
    · obtain ⟨w1, i1, ch2, c1, c2⟩ := readStep_full s p n wire ch hch harm hopen hd hfull
      have hloop : Server.readLoop p (n :: ns) (s, wire) =
          Server.readLoop p ns ((s.readStep p n wire).1, wire) :=
        (readLoop_cons p n ns s wire).trans (congrArg _ (Prod.ext rfl w1))
      rw [hloop, readLoop_unarmed p ns _ wire ch2 c1 c2, i1]
    · have hroom : ch.streamBuf.length < BUFFER_SIZE := by omega
      have hstep := readStep_transfer s p n wire ch hch harm hopen hd hroom
      have hloop := readLoop_cons p n ns s wire
      rw [hstep] at hloop
      rw [hloop]
      have := ih
        (s.setChannel p { ch with streamBuf :=
          (ch.streamBuf ++ wire.take (min n (BUFFER_SIZE - ch.streamBuf.length))) })
        { ch with streamBuf :=
          (ch.streamBuf ++ wire.take (min n (BUFFER_SIZE - ch.streamBuf.length))) }
        (wire.drop (min n (BUFFER_SIZE - ch.streamBuf.length)))
        (by simp [Server.setChannel]) harm hopen
        (by
          simp only [List.length_append, List.length_take]
          omega)
        (by simpa [List.append_assoc] using hfree)
      rw [this]
      rfl

/-- Claim C4, as amended. A Server Channel with an outstanding read, an open
socket and an empty accumulator is sent the bytes of the delimiter-free texts
`ms`, each shorter than `BUFFER_SIZE` and each followed by the delimiter, and then
a delimiter-free `rest`. Whatever the sizes of the transfers from the socket, the
Messages appended to the inbound queue are a prefix of the texts of `ms`, in
order and each tagged with the Connection of the Channel; once the read loop has
run for as many steps, each transferring at least one byte, as there are bytes
and texts, all of `ms` have been appended, and nothing else: in particular
nothing for `rest`. -/
theorem readLoop_delivers_in_order (s : Server) (p : Nat) (ch : Channel)
    (ms : List Text) (rest : Text) (sizes : List Nat)
    (hch : s.heap p = some ch) (harm : ch.readArmed = true)
    (hopen : ch.socketOpen = true) (hbuf : ch.streamBuf = [])
    (hms : ∀ m ∈ ms, MESSAGE_DELIMITER ∉ m ∧ m.length < BUFFER_SIZE)
    (hrest : MESSAGE_DELIMITER ∉ rest) :
    ∃ k, k ≤ ms.length ∧
      (Server.readLoop p sizes (s, wireBytes ms rest)).1.incoming =
        s.incoming ++ (ms.take k).map (fun m => (⟨ch.connection, m⟩ : Message)) ∧
      ((∀ n ∈ sizes, 0 < n) → (wireBytes ms rest).length + ms.length ≤ sizes.length →
        (Server.readLoop p sizes (s, wireBytes ms rest)).1.incoming =
          s.incoming ++ ms.map (fun m => (⟨ch.connection, m⟩ : Message))) := by
  obtain ⟨k, hk, hinc, hlive⟩ := readLoop_delivers_aux p rest hrest sizes s ch
    (wireBytes ms rest) ms hch harm hopen (by simp [hbuf]) hms
  refine ⟨k, hk, hinc, fun hpos hlen => ?_⟩
  rw [hinc, hlive hpos hlen, List.take_length]

/-- Witness for C4: a freshly accepted Channel at address 7 is sent "hi", an empty
text and the unfinished "x", in transfers of 2, 5, 1, 1, 1, 1 and 1 bytes. -/
theorem readLoop_delivers_in_order_witness :
    (Server.readLoop 7 [2, 5, 1, 1, 1, 1, 1]
        (Server.init.onAccept 7 false, wireBytes [['h', 'i'], []] ['x'])).1.incoming =
      [⟨⟨7⟩, ['h', 'i']⟩, ⟨⟨7⟩, []⟩] := by
  obtain ⟨_, _, _, hall⟩ := readLoop_delivers_in_order (Server.init.onAccept 7 false) 7
    (Channel.start { Channel.new 7 with socketOpen := true }) [['h', 'i'], []] ['x']
    [2, 5, 1, 1, 1, 1, 1] (by simp [Server.onAccept]) rfl rfl rfl (by decide) (by decide)
  exact hall (by decide) (by decide)

theorem readLoop_oversized_fresh (address : Nat) (m : Text) (ms : List Text) (rest : Text)
    (hlen : BUFFER_SIZE ≤ m.length) (hfree : MESSAGE_DELIMITER ∉ m) (sizes : List Nat) :
    (Server.readLoop address sizes
      (Server.init.onAccept address false, wireBytes (m :: ms) rest)).1.incoming = [] := by
  have h := readLoop_oversized address sizes (Server.init.onAccept address false)
    (Channel.start { Channel.new address with socketOpen := true })
    (wireBytes (m :: ms) rest) (by simp [Server.onAccept]) rfl rfl
    (by simp [Channel.start, Channel.readLine, Channel.new])
    (by
      have e : (Channel.start { Channel.new address with socketOpen := true }).streamBuf ++
          wireBytes (m :: ms) rest = m ++ MESSAGE_DELIMITER :: wireBytes ms rest := by
        rw [wireBytes_cons]
        rfl
      rw [e, List.take_append_eq_append_take]
      have h0 : BUFFER_SIZE - m.length = 0 := by omega
      rw [h0, List.take_zero, List.append_nil]
      exact fun hmem => hfree (List.mem_of_mem_take hmem))
  rw [h]
  rfl

/-- Counterexample for C4 as stated: a text of 256 bytes with no delimiter, sent
with its delimiter to a freshly accepted Channel, is never appended to the inbound
queue, however the bytes are transferred and however long the read loop runs. -/
theorem oversized_message_not_delivered :
    MESSAGE_DELIMITER ∉ List.replicate 256 'a' ∧
      ∀ sizes : List Nat,
        (Server.readLoop 7 sizes
          (Server.init.onAccept 7 false,
            wireBytes [List.replicate 256 'a'] [])).1.incoming = [] := by
  have hfree : MESSAGE_DELIMITER ∉ List.replicate 256 'a' := by
    intro h
    exact absurd (List.eq_of_mem_replicate h) (by decide)
  exact ⟨hfree, fun sizes => readLoop_oversized_fresh 7 _ [] [] (by
    rw [List.length_replicate]; exact Nat.le_refl _) hfree sizes⟩


/-! ## Outbound FIFO -/

theorem suffix_concat {α : Type} (l₁ l₂ : List α) (a : α) (h : l₁ <:+ l₂) :
    l₁ ++ [a] <:+ l₂ ++ [a] := by
  obtain ⟨t, rfl⟩ := h
  exact ⟨t, by simp⟩

theorem suffix_tail_of_cons {α : Type} (x : α) (rest l : List α) (h : x :: rest <:+ l) :
    rest <:+ l.tail ∧ rest <:+ l ∧ l ≠ [] := by
  obtain ⟨t, rfl⟩ := h
  refine ⟨?_, ⟨t ++ [x], by simp⟩, by simp⟩
  cases t with
  | nil => exact ⟨[], by simp⟩
  | cons y ys => exact ⟨ys ++ [x], by simp⟩

theorem suffix_eraseIdx_zero (f w : List Text) (h : f <:+ w) (hi : 0 < f.length) :
    f.eraseIdx 0 <:+ w ∧ f.eraseIdx 0 <:+ w.tail := by
  cases f with
  | nil => simp at hi
  | cons x rest =>
    obtain ⟨h1, h2, -⟩ := suffix_tail_of_cons x rest w h
    exact ⟨h2, h1⟩

theorem length_eraseIdx_le (f w : List Text) (index : Nat) (h : f.length ≤ w.length)
    (hi : index < f.length) :
    (f.eraseIdx index).length ≤ w.length ∧ (f.eraseIdx index).length ≤ w.tail.length := by
  have h1 : (f.eraseIdx index).length = f.length - 1 := List.length_eraseIdx_of_lt hi
  have h2 : w.tail.length = w.length - 1 := List.length_tail w
  omega

theorem Channel.sendKeepsRelation (R : List Text → List Text → Prop)
    (hsend : ∀ f w x, R f w → R (f ++ [x]) (w ++ [x])) (ch : Channel) (text : Text)
    (h : R ch.writesInFlight ch.writeBuffer) :
    R (ch.send text).writesInFlight (ch.send text).writeBuffer := by
  unfold Channel.send
  split
  · exact h
  · simpa using hsend _ _ (ensureMessageTerminator text) h

theorem Client.clientSendKeepsRelation (R : List Text → List Text → Prop)
    (hsend : ∀ f w x, R f w → R (f ++ [x]) (w ++ [x])) (c : Client) (text : Text)
    (h : R c.writesInFlight c.writeBuffer) :
    R (c.send text).writesInFlight (c.send text).writeBuffer := by
  unfold Client.send
  split
  · exact h
  · simpa using hsend _ _ (ensureMessageTerminator text) h

theorem Client.clientWriteDoneKeepsRelation (R : List Text → List Text → Prop)
    (c : Client) (index : Nat) (errorCode : Bool)
    (hdone : index < c.writesInFlight.length →
      R (c.writesInFlight.eraseIdx index) c.writeBuffer ∧
        R (c.writesInFlight.eraseIdx index) c.writeBuffer.tail)
    (h : R c.writesInFlight c.writeBuffer) :
    R (c.completeWrite index errorCode).writesInFlight
      (c.completeWrite index errorCode).writeBuffer := by
  unfold Client.completeWrite
  split
  · rename_i hi
    cases errorCode
    · simpa [Client.onWrite] using (hdone hi).2
    · simpa [Client.onWrite, Client.disconnect] using (hdone hi).1
  · exact h

theorem Client.completeConnect_writes (c : Client) (reachable : Endpoint → Bool) :
    (c.completeConnect reachable).writesInFlight = c.writesInFlight ∧
      (c.completeConnect reachable).writeBuffer = c.writeBuffer := by
  unfold Client.completeConnect
  cases c.connectPending with
  | none => exact ⟨rfl, rfl⟩
  | some endpoints =>
    cases he : endpoints.any reachable <;>
      simp [Client.onConnect, Client.readMessage, he]

theorem Client.onRead_writes (c : Client) (errorCode : Bool) (size : Nat) :
    (c.onRead errorCode size).writesInFlight = c.writesInFlight ∧
      (c.onRead errorCode size).writeBuffer = c.writeBuffer := by
  unfold Client.onRead
  cases errorCode
  · by_cases hs : size > 0 <;> simp [hs, Client.readMessage]
  · simp [Client.disconnect]

theorem Client.readStep_writes (c : Client) (n : Nat) (wire : List Char) :
    (c.readStep n wire).1.writesInFlight = c.writesInFlight ∧
      (c.readStep n wire).1.writeBuffer = c.writeBuffer := by
  unfold Client.readStep
  split
  · exact ⟨rfl, rfl⟩
  · split
    · exact Client.onRead_writes _ true 0
    · split
      · exact Client.onRead_writes _ false _
      · exact ⟨rfl, rfl⟩

theorem Client.clientReachableKeepsRelation (R : List Text → List Text → Prop)
    (issueOrder : Bool) (hinit : R [] [])
    (hsend : ∀ f w x, R f w → R (f ++ [x]) (w ++ [x]))
    (hdone : ∀ (f w : List Text) (index : Nat), (issueOrder = true → index = 0) →
      R f w → index < f.length → R (f.eraseIdx index) w ∧ R (f.eraseIdx index) w.tail)
    (c : Client) (h : Client.Reachable issueOrder c) :
    R c.writesInFlight c.writeBuffer := by
  induction h with
  | @new c resolved hnew =>
    cases resolved with
    | none => simp [Client.new] at hnew
    | some endpoints =>
      simp only [Client.new, Option.some.injEq] at hnew
      subst hnew
      exact hinit
  | send message _ ih => exact Client.clientSendKeepsRelation R hsend _ message ih
  | receive _ ih => exact ih
  | completeConnect reachable _ ih =>
    rw [(Client.completeConnect_writes _ reachable).1,
      (Client.completeConnect_writes _ reachable).2]
    exact ih
  | completeWrite index errorCode hidx _ ih =>
    exact Client.clientWriteDoneKeepsRelation R _ index errorCode
      (hdone _ _ index hidx ih) ih
  | onRead errorCode size _ ih =>
    rw [(Client.onRead_writes _ errorCode size).1, (Client.onRead_writes _ errorCode size).2]
    exact ih
  | readStep n wire _ ih =>
    rw [(Client.readStep_writes _ n wire).1, (Client.readStep_writes _ n wire).2]
    exact ih

theorem Server.setChannelKeepsRelation (R : List Text → List Text → Prop)
    (s : Server) (p : Nat) (ch : Channel)
    (hs : s.WritesRelated R) (hch : R ch.writesInFlight ch.writeBuffer) :
    (s.setChannel p ch).WritesRelated R := by
  intro q ch2 hq
  by_cases e : q = p
  · simp only [Server.setChannel, e, if_true, Option.some.injEq] at hq
    exact hq ▸ hch
  · simp only [Server.setChannel, e, if_false] at hq
    exact hs q ch2 hq

theorem Server.disconnectKeepsRelation (R : List Text → List Text → Prop)
    (s : Server) (c : Connection) (hs : s.WritesRelated R) :
    (s.disconnect c).WritesRelated R := by
  unfold Server.disconnect
  cases hc : s.channels c with
  | none => exact hs
  | some a =>
    intro q ch2 hq
    by_cases e : q = a
    · subst e
      simp only [if_true] at hq
      cases hh : s.heap q with
      | none => simp [hh] at hq
      | some ch =>
        simp only [hh, Option.map_some', Option.some.injEq] at hq
        subst hq
        exact hs q ch hh
    · simp only [e, if_false] at hq
      exact hs q ch2 hq

theorem Server.channelSendKeepsRelation (R : List Text → List Text → Prop)
    (hsend : ∀ f w x, R f w → R (f ++ [x]) (w ++ [x]))
    (s : Server) (p : Nat) (text : Text)
    (hs : s.WritesRelated R) : (s.channelSend p text).WritesRelated R := by
  unfold Server.channelSend
  cases hh : s.heap p with
  | none => exact hs
  | some ch =>
    exact Server.setChannelKeepsRelation R s p _ hs
      (Channel.sendKeepsRelation R hsend ch text (hs p ch hh))

theorem Server.batchSendKeepsRelation (R : List Text → List Text → Prop)
    (hsend : ∀ f w x, R f w → R (f ++ [x]) (w ++ [x])) (messages : List Message) :
    ∀ s : Server, s.WritesRelated R → (s.send messages).WritesRelated R := by
  induction messages with
  | nil => intro s hs; exact hs
  | cons m rest ih =>
    intro s hs
    unfold Server.send
    cases s.channels m.connection with
    | none => exact ih s hs
    | some a => exact ih _ (Server.channelSendKeepsRelation R hsend s a m.text hs)

theorem Server.onAcceptKeepsRelation (R : List Text → List Text → Prop) (hinit : R [] [])
    (s : Server) (address : Nat) (errorCode : Bool)
    (hs : s.WritesRelated R) : (s.onAccept address errorCode).WritesRelated R := by
  unfold Server.onAccept
  cases errorCode
  · intro q ch2 hq
    by_cases e : q = address
    · simp only [Bool.not_false, if_true, e, Option.some.injEq] at hq
      subst hq
      exact hinit
    · simp only [Bool.not_false, if_true, e, if_false] at hq
      exact hs q ch2 hq
  · exact hs

theorem Server.iteKeepsRelation (R : List Text → List Text → Prop)
    (b : Prop) [Decidable b] (s₁ s₂ : Server)
    (h₁ : s₁.WritesRelated R) (h₂ : s₂.WritesRelated R) :
    (if b then s₁ else s₂).WritesRelated R := by
  split
  · exact h₁
  · exact h₂

theorem Server.channelWriteDoneKeepsRelation (R : List Text → List Text → Prop)
    (s : Server) (p : Nat) (index : Nat) (errorCode : Bool)
    (hdone : ∀ f w : List Text, R f w → index < f.length →
      R (f.eraseIdx index) w ∧ R (f.eraseIdx index) w.tail)
    (hs : s.WritesRelated R) : (s.completeWrite p index errorCode).WritesRelated R := by
  unfold Server.completeWrite
  cases hh : s.heap p with
  | none => exact hs
  | some ch =>
    dsimp only
    split
    · rename_i hi
      obtain ⟨h1, h2⟩ := hdone _ _ (hs p ch hh) hi
      have hs1 : (s.setChannel p
          { ch with writesInFlight := ch.writesInFlight.eraseIdx index }).WritesRelated R :=
        Server.setChannelKeepsRelation R s p _ hs h1
      have hh1 : (s.setChannel p
          { ch with writesInFlight := ch.writesInFlight.eraseIdx index }).heap p =
          some { ch with writesInFlight := ch.writesInFlight.eraseIdx index } := by
        simp [Server.setChannel]
      simp only [Server.onWrite, hh1]
      exact Server.iteKeepsRelation R _ _ _ (Server.setChannelKeepsRelation R _ p _ hs1 h2)
        (Server.iteKeepsRelation R _ _ _ (Server.disconnectKeepsRelation R _ _ hs1) hs1)
    · exact hs

theorem Server.onReadKeepsRelation (R : List Text → List Text → Prop)
    (s : Server) (p : Nat) (errorCode : Bool)
    (hs : s.WritesRelated R) : (s.onRead p errorCode).WritesRelated R := by
  unfold Server.onRead
  cases hh : s.heap p with
  | none => exact hs
  | some ch =>
    dsimp only
    refine Server.iteKeepsRelation R _ _ _ ?_
      (Server.iteKeepsRelation R _ _ _ (Server.disconnectKeepsRelation R _ _ hs) hs)
    intro q ch2 hq
    by_cases e : q = p
    · simp only [e, if_true, Option.some.injEq] at hq
      subst hq
      exact hs p ch hh
    · simp only [e, if_false] at hq
      exact hs q ch2 hq

theorem Server.readStepKeepsRelation (R : List Text → List Text → Prop)
    (s : Server) (p n : Nat) (wire : List Char)
    (hs : s.WritesRelated R) : (s.readStep p n wire).1.WritesRelated R := by
  unfold Server.readStep
  cases hh : s.heap p with
  | none => exact hs
  | some ch =>
    have hch := hs p ch hh
    have h1 : ∀ ec, (s.completeRead p ch ec).WritesRelated R := fun ec =>
      Server.onReadKeepsRelation R _ p ec (Server.setChannelKeepsRelation R s p _ hs hch)
    dsimp only
    split
    · exact hs
    · split
      · exact h1 true
      · split
        · exact h1 false
        · split
          · exact h1 true
          · exact Server.setChannelKeepsRelation R s p _ hs hch

theorem Server.serverReachableKeepsRelation (R : List Text → List Text → Prop)
    (issueOrder : Bool) (hinit : R [] [])
    (hsend : ∀ f w x, R f w → R (f ++ [x]) (w ++ [x]))
    (hdone : ∀ (f w : List Text) (index : Nat), (issueOrder = true → index = 0) →
      R f w → index < f.length → R (f.eraseIdx index) w ∧ R (f.eraseIdx index) w.tail)
    (s : Server) (h : Server.Reachable issueOrder s) :
    s.WritesRelated R := by
  induction h with
  | init => intro p ch hp; simp [Server.init] at hp
  | onAccept address errorCode _ ih =>
    exact Server.onAcceptKeepsRelation R hinit _ address errorCode ih
  | send messages _ ih => exact Server.batchSendKeepsRelation R hsend messages _ ih
  | receive _ ih => exact ih
  | disconnect connection _ ih => exact Server.disconnectKeepsRelation R _ connection ih
  | completeWrite address index errorCode hidx _ ih =>
    exact Server.channelWriteDoneKeepsRelation R _ address index errorCode
      (fun f w => hdone f w index hidx) ih
  | readStep address n wire _ ih => exact Server.readStepKeepsRelation R _ address n wire ih

/-- Claim C5, as amended. On a Client, and on every Channel of a Server, in every
reachable state and whatever the order in which the writes complete, there are
never more writes outstanding than the outbound FIFO has entries, so that the
`pop_front` of a completion handler always finds an entry; there can be as many
as the FIFO has entries. When the writes complete in the order they were issued,
the outstanding writes are, oldest first, a suffix of the FIFO: each is a write
of an entry still in the FIFO. A `send` of a non-empty text always issues a
write, whether or not one is outstanding, and the write is of the entry it has
just appended at the tail. -/
theorem writes_in_flight_within_fifo :
    (∀ (issueOrder : Bool) (c : Client), Client.Reachable issueOrder c →
      c.writesInFlight.length ≤ c.writeBuffer.length) ∧
    (∀ (issueOrder : Bool) (s : Server), Server.Reachable issueOrder s →
      ∀ p ch, s.heap p = some ch → ch.writesInFlight.length ≤ ch.writeBuffer.length) ∧
    (∀ c : Client, Client.Reachable true c → c.writesInFlight <:+ c.writeBuffer) ∧
    (∀ s : Server, Server.Reachable true s →
      ∀ p ch, s.heap p = some ch → ch.writesInFlight <:+ ch.writeBuffer) ∧
    (∀ (c : Client) (text : Text), text ≠ [] →
      (c.send text).writeBuffer = c.writeBuffer ++ [ensureMessageTerminator text] ∧
        (c.send text).writesInFlight =
          c.writesInFlight ++ [ensureMessageTerminator text]) ∧
    (∀ (ch : Channel) (text : Text), text ≠ [] →
      (ch.send text).writeBuffer = ch.writeBuffer ++ [ensureMessageTerminator text] ∧
        (ch.send text).writesInFlight =
          ch.writesInFlight ++ [ensureMessageTerminator text]) := by
  have hlen : ∀ (f w : List Text) (x : Text), f.length ≤ w.length →
      (f ++ [x]).length ≤ (w ++ [x]).length := by
    intro f w x h
    simp only [List.length_append, List.length_singleton]
    omega
  have hlenDone : ∀ (o : Bool) (f w : List Text) (index : Nat), (o = true → index = 0) →
      f.length ≤ w.length → index < f.length →
      (f.eraseIdx index).length ≤ w.length ∧ (f.eraseIdx index).length ≤ w.tail.length :=
    fun _ f w index _ h hi => length_eraseIdx_le f w index h hi
  have hsufDone : ∀ (f w : List Text) (index : Nat), (true = true → index = 0) →
      f <:+ w → index < f.length → f.eraseIdx index <:+ w ∧ f.eraseIdx index <:+ w.tail := by
    intro f w index hidx h hi
    have h0 : index = 0 := hidx rfl
    subst h0
    exact suffix_eraseIdx_zero f w h hi
  refine ⟨?_, ?_, ?_, ?_, ?_, ?_⟩
  · intro o c hr
    exact Client.clientReachableKeepsRelation (fun f w => f.length ≤ w.length) o
      (Nat.le_refl _) hlen (hlenDone o) c hr
  · intro o s hr
    exact Server.serverReachableKeepsRelation (fun f w => f.length ≤ w.length) o
      (Nat.le_refl _) hlen (hlenDone o) s hr
  · intro c hr
    exact Client.clientReachableKeepsRelation (fun f w => f <:+ w) true
      (List.suffix_refl _) (fun f w x h => suffix_concat f w x h) hsufDone c hr
  · intro s hr
    exact Server.serverReachableKeepsRelation (fun f w => f <:+ w) true
      (List.suffix_refl _) (fun f w x h => suffix_concat f w x h) hsufDone s hr
  · intro c text hne
    exact ⟨by simp [Client.send, hne], by simp [Client.send, hne]⟩
  · intro ch text hne
    exact ⟨by simp [Channel.send, hne], by simp [Channel.send, hne]⟩

/-- Witness for C5: a Client after `send "a"`, `send "b"` and the successful
completion of the first write has one outstanding write, of the entry "b\r" that
is left in its FIFO. -/
theorem writes_in_flight_within_fifo_witness :
    ∃ c, Client.new (some [⟨0⟩]) = some c ∧
      (((c.send ['a']).send ['b']).completeWrite 0 false).writesInFlight.length ≤
        (((c.send ['a']).send ['b']).completeWrite 0 false).writeBuffer.length ∧
      (((c.send ['a']).send ['b']).completeWrite 0 false).writesInFlight <:+
        (((c.send ['a']).send ['b']).completeWrite 0 false).writeBuffer ∧
      (((c.send ['a']).send ['b']).completeWrite 0 false).writesInFlight = [['b', '\r']] ∧
      (((c.send ['a']).send ['b']).completeWrite 0 false).writeBuffer = [['b', '\r']] :=
  ⟨_, rfl,
    writes_in_flight_within_fifo.1 true _
      (Client.Reachable.completeWrite 0 false (fun _ => rfl)
        (Client.Reachable.send ['b']
          (Client.Reachable.send ['a'] (Client.Reachable.new (some [⟨0⟩]) rfl)))),
    writes_in_flight_within_fifo.2.2.1 _
      (Client.Reachable.completeWrite 0 false (fun _ => rfl)
        (Client.Reachable.send ['b']
          (Client.Reachable.send ['a'] (Client.Reachable.new (some [⟨0⟩]) rfl)))),
    by decide, by decide⟩

/-- When the second of two outstanding writes completes first, its handler pops
the entry of the first: the state is reachable, the write still outstanding is
not a write of an entry of the FIFO, and the count is still within the FIFO. -/
theorem out_of_order_completion_pops_other_entry :
    ∃ c, Client.new (some [⟨0⟩]) = some c ∧
      Client.Reachable false (((c.send ['a']).send ['b']).completeWrite 1 false) ∧
      (((c.send ['a']).send ['b']).completeWrite 1 false).writesInFlight = [['a', '\r']] ∧
      (((c.send ['a']).send ['b']).completeWrite 1 false).writeBuffer = [['b', '\r']] ∧
      ¬ (((c.send ['a']).send ['b']).completeWrite 1 false).writesInFlight <:+
          (((c.send ['a']).send ['b']).completeWrite 1 false).writeBuffer :=
  ⟨_, rfl,
    Client.Reachable.completeWrite 1 false (fun h => absurd h (by decide))
      (Client.Reachable.send ['b']
        (Client.Reachable.send ['a'] (Client.Reachable.new (some [⟨0⟩]) rfl))),
    by decide, by decide, by decide⟩

/-- Counterexample for C5 as stated: after `send "a"` and `send "b"` with no
completion in between, a Client and a Server Channel both have two writes
outstanding, the second of them a write of the tail "b\r" of the FIFO and not of
its head "a\r"; the second `send` issued its write while one was in flight. -/
theorem two_writes_in_flight :
    (∃ c, Client.new (some [⟨0⟩]) = some c ∧
      Client.Reachable true ((c.send ['a']).send ['b']) ∧
      (c.send ['a']).writesInFlight = [['a', '\r']] ∧
      ((c.send ['a']).send ['b']).writesInFlight = [['a', '\r'], ['b', '\r']] ∧
      ((c.send ['a']).send ['b']).writeBuffer.head? = some ['a', '\r']) ∧
    (Server.Reachable true
        ((Server.init.onAccept 7 false).send [⟨⟨7⟩, ['a']⟩, ⟨⟨7⟩, ['b']⟩]) ∧
      (((Server.init.onAccept 7 false).send [⟨⟨7⟩, ['a']⟩, ⟨⟨7⟩, ['b']⟩]).heap 7).map
          Channel.writesInFlight = some [['a', '\r'], ['b', '\r']] ∧
      (((Server.init.onAccept 7 false).send [⟨⟨7⟩, ['a']⟩, ⟨⟨7⟩, ['b']⟩]).heap 7).map
          Channel.writeBuffer = some [['a', '\r'], ['b', '\r']]) :=
  ⟨⟨_, rfl,
      Client.Reachable.send ['b']
        (Client.Reachable.send ['a'] (Client.Reachable.new (some [⟨0⟩]) rfl)),
      by decide, by decide, by decide⟩,
    Server.Reachable.send _ (Server.Reachable.onAccept 7 false Server.Reachable.init),
    by decide, by decide⟩

/-! ## Client construction -/

/-- Claim C6, as amended. Constructing a Client fails exactly when the address
cannot be resolved. When it resolves, construction succeeds whether or not a
candidate endpoint can be reached: the connection is only started, the Client
handed to the caller reports `isDisconnected() == false`, has nothing queued, and
its `send` of a non-empty text appends the framed text to the outbound FIFO. The
read loop is started, when the connect completes, exactly if some candidate could
be reached. -/
theorem Client.new_fails_only_on_resolution (resolved : Option (List Endpoint)) :
    (Client.new resolved = none ↔ resolved = none) ∧
    (∀ endpoints, resolved = some endpoints →
      ∃ c, Client.new resolved = some c ∧ c.isDisconnected = false ∧
        c.connectPending = some endpoints ∧ c.writeBuffer = [] ∧
        (∀ text, text ≠ [] → (c.send text).writeBuffer = [ensureMessageTerminator text]) ∧
        (∀ reachable, (c.completeConnect reachable).readArmed = endpoints.any reachable)) := by
  cases resolved with
  | none => simp [Client.new]
  | some endpoints =>
    refine ⟨by simp [Client.new], ?_⟩
    intro eps heps
    simp only [Option.some.injEq] at heps
    subst heps
    refine ⟨_, rfl, rfl, rfl, rfl, ?_, ?_⟩
    · intro text hne
      simp [Client.send, Client.connect, hne]
    · intro reachable
      cases he : endpoints.any reachable <;>
        simp [Client.completeConnect, Client.connect, Client.onConnect,
          Client.readMessage, he]

/-- Witness for C6: one candidate endpoint was resolved. -/
theorem Client.new_fails_only_on_resolution_witness :
    ∃ c, Client.new (some [⟨0⟩]) = some c ∧ c.isDisconnected = false ∧
      c.connectPending = some [⟨0⟩] ∧ c.writeBuffer = [] ∧
      (∀ text, text ≠ [] → (c.send text).writeBuffer = [ensureMessageTerminator text]) ∧
      (∀ reachable, (c.completeConnect reachable).readArmed =
        List.any [⟨0⟩] reachable) :=
  (Client.new_fails_only_on_resolution (some [⟨0⟩])).2 [⟨0⟩] rfl

/-- Counterexample for C6 as stated: one candidate endpoint is resolved and no
endpoint can be reached. The constructor returns a Client; it reports
`isDisconnected() == false` and accepts `send "hi"`, both before and after the
failed connect has completed. -/
theorem Client.unreachable_server_still_constructs :
    ∃ c, Client.new (some [⟨0⟩]) = some c ∧
      c.isDisconnected = false ∧
      (c.send ['h', 'i']).writeBuffer = [['h', 'i', '\r']] ∧
      (c.completeConnect (fun _ => false)).isDisconnected = false ∧
      ((c.completeConnect (fun _ => false)).send ['h', 'i']).writeBuffer =
        [['h', 'i', '\r']] :=
  ⟨_, rfl, by decide, by decide, by decide, by decide⟩

/-! ## Postcondition of send -/

/-- Claim C7. For `Server::Channel::send` and for `Client::send`: on the empty
text the object is unchanged, so the FIFO is unchanged and no write is issued; on
a non-empty text exactly one entry is appended at the tail of the FIFO, the text
itself when it ends with the delimiter and the text followed by one delimiter
otherwise, the earlier entries staying in place, and one write is issued for that
entry. -/
theorem send_postcondition (text : Text) :
    (∀ ch : Channel,
      (text = [] → ch.send text = ch) ∧
      (text ≠ [] → ch.send text =
        { ch with
          writeBuffer := ch.writeBuffer ++
            [if text.getLast? = some MESSAGE_DELIMITER then text
              else text ++ [MESSAGE_DELIMITER]]
          writesInFlight := ch.writesInFlight ++
            [if text.getLast? = some MESSAGE_DELIMITER then text
              else text ++ [MESSAGE_DELIMITER]] })) ∧
    (∀ c : Client,
      (text = [] → c.send text = c) ∧
      (text ≠ [] → c.send text =
        { c with
          writeBuffer := c.writeBuffer ++
            [if text.getLast? = some MESSAGE_DELIMITER then text
              else text ++ [MESSAGE_DELIMITER]]
          writesInFlight := c.writesInFlight ++
            [if text.getLast? = some MESSAGE_DELIMITER then text
              else text ++ [MESSAGE_DELIMITER]] })) := by
  have hframe : ensureMessageTerminator text =
      (if text.getLast? = some MESSAGE_DELIMITER then text
        else text ++ [MESSAGE_DELIMITER]) := by
    unfold ensureMessageTerminator
    by_cases hl : text.getLast? = some MESSAGE_DELIMITER <;> simp [hl]
  refine ⟨fun ch => ⟨?_, ?_⟩, fun c => ⟨?_, ?_⟩⟩
  · intro h0
    simp [Channel.send, h0]
  · intro hne
    simp [Channel.send, hne, hframe]
  · intro h0
    simp [Client.send, h0]
  · intro hne
    simp [Client.send, hne, hframe]

/-- Witness for C7: on a Channel that already has "a\r" queued, the text "b" is
queued as "b\r", the text "c\r" as it is, and the empty text not at all. -/
theorem send_postcondition_witness :
    (((Channel.new 7).send ['a']).send ['b']).writeBuffer = [['a', '\r'], ['b', '\r']] ∧
      (((Channel.new 7).send ['a']).send ['c', '\r']).writeBuffer =
        [['a', '\r'], ['c', '\r']] ∧
      ((Channel.new 7).send ['a']).send [] = (Channel.new 7).send ['a'] := by
  refine ⟨?_, ?_, ?_⟩
  · rw [((send_postcondition ['b']).1 _).2 (by decide)]
    decide
  · rw [((send_postcondition ['c', '\r']).1 _).2 (by decide)]
    decide
  · exact ((send_postcondition []).1 _).1 rfl


/-! ## Server: send, disconnect, receive -/

theorem Server.channelSend_fields (s : Server) (a : Nat) (text : Text) :
    (s.channelSend a text).channels = s.channels ∧
      (s.channelSend a text).incoming = s.incoming ∧
      (s.channelSend a text).handlerCalls = s.handlerCalls ∧
      ∀ p, (s.channelSend a text).heap p =
        if p = a then (s.heap a).map (fun ch => ch.send text) else s.heap p := by
  unfold Server.channelSend
  cases hh : s.heap a with
  | none =>
    refine ⟨rfl, rfl, rfl, fun p => ?_⟩
    by_cases e : p = a
    · simp [e, hh]
    · simp [e]
  | some ch =>
    refine ⟨rfl, rfl, rfl, fun p => ?_⟩
    by_cases e : p = a
    · simp [Server.setChannel, e]
    · simp [Server.setChannel, e]

theorem Server.send_fields (messages : List Message) :
    ∀ s : Server,
      (s.send messages).channels = s.channels ∧
      (s.send messages).incoming = s.incoming ∧
      (s.send messages).handlerCalls = s.handlerCalls ∧
      ∀ p, (s.send messages).heap p =
        (s.heap p).map (fun ch =>
          (messages.filter (fun m => s.channels m.connection = some p)).foldl
            (fun c m => c.send m.text) ch) := by
  induction messages with
  | nil => intro s; simp [Server.send]
  | cons m rest ih =>
    intro s
    unfold Server.send
    cases hc : s.channels m.connection with
    | none =>
      obtain ⟨h1, h2, h3, h4⟩ := ih s
      refine ⟨h1, h2, h3, fun p => ?_⟩
      rw [h4 p]
      simp [List.filter_cons, hc]
    | some a =>
      obtain ⟨c1, c2, c3, c4⟩ := Server.channelSend_fields s a m.text
      obtain ⟨h1, h2, h3, h4⟩ := ih (s.channelSend a m.text)
      refine ⟨h1.trans c1, h2.trans c2, h3.trans c3, fun p => ?_⟩
      dsimp only
      rw [h4 p, c4 p, c1]
      by_cases e : p = a
      · subst e
        cases s.heap p <;> simp [List.filter_cons, hc]
      · have e2 : ¬ a = p := fun h => e h.symm
        simp [List.filter_cons, hc, e, e2]

theorem Server.send_unregistered (messages : List Message) (s : Server)
    (h : ∀ m ∈ messages, s.channels m.connection = none) : s.send messages = s := by
  induction messages with
  | nil => rfl
  | cons m rest ih =>
    unfold Server.send
    rw [h m (List.mem_cons_self _ _)]
    exact ih (fun x hx => h x (List.mem_cons_of_mem _ hx))

theorem Server.disconnect_erases (s : Server) (id : Connection) :
    (s.disconnect id).channels id = none := by
  unfold Server.disconnect
  cases hc : s.channels id with
  | none => exact hc
  | some a => simp

/-- Claim C8. `Server::send` is total on every Server state and batch. It leaves
the registry, the inbound queue and the record of callbacks as they were. The
Channel at each address ends up as after `send` of the texts of exactly those
Messages of the batch whose Connection the registry maps to that address, in
batch order: a Message with a registered Connection is enqueued on that Channel
and on no other, and a Message whose Connection is not registered is enqueued
nowhere. A batch with no registered Connection leaves the whole Server
unchanged, and so does a batch addressed to `id` sent after `disconnect(id)`. -/
theorem Server.send_registered_only (s : Server) (messages : List Message) :
    (s.send messages).channels = s.channels ∧
    (s.send messages).incoming = s.incoming ∧
    (s.send messages).handlerCalls = s.handlerCalls ∧
    (∀ p, (s.send messages).heap p =
      (s.heap p).map (fun ch =>
        (messages.filter (fun m => s.channels m.connection = some p)).foldl
          (fun c m => c.send m.text) ch)) ∧
    ((∀ m ∈ messages, s.channels m.connection = none) → s.send messages = s) ∧
    (∀ id, (∀ m ∈ messages, m.connection = id) →
      (s.disconnect id).send messages = s.disconnect id) :=
  ⟨(Server.send_fields messages s).1, (Server.send_fields messages s).2.1,
    (Server.send_fields messages s).2.2.1, (Server.send_fields messages s).2.2.2,
    Server.send_unregistered messages s,
    fun id h => Server.send_unregistered messages _
      (fun m hm => (h m hm) ▸ Server.disconnect_erases s id)⟩

/-- Witness for C8: with Channels registered at 7 and 8, the batch "a" for 7, "x"
for the unregistered 9, "b" for 7 queues "a\r" and "b\r" on the Channel at 7,
nothing on the Channel at 8, and a batch for 9 alone changes nothing. -/
theorem Server.send_registered_only_witness :
    ((((Server.init.onAccept 7 false).onAccept 8 false).send
        [⟨⟨7⟩, ['a']⟩, ⟨⟨9⟩, ['x']⟩, ⟨⟨7⟩, ['b']⟩]).heap 7).map Channel.writeBuffer =
      some [['a', '\r'], ['b', '\r']] ∧
    ((((Server.init.onAccept 7 false).onAccept 8 false).send
        [⟨⟨7⟩, ['a']⟩, ⟨⟨9⟩, ['x']⟩, ⟨⟨7⟩, ['b']⟩]).heap 8).map Channel.writeBuffer =
      some [] ∧
    ((Server.init.onAccept 7 false).onAccept 8 false).send [⟨⟨9⟩, ['x']⟩] =
      (Server.init.onAccept 7 false).onAccept 8 false := by
  refine ⟨?_, ?_, ?_⟩
  · rw [(Server.send_registered_only _ _).2.2.2.1 7]
    decide
  · rw [(Server.send_registered_only _ _).2.2.2.1 8]
    decide
  · exact (Server.send_registered_only _ _).2.2.2.2.1 (by decide)

/-- Claim C9. `Server::disconnect(id)` on a registered `id` calls the disconnect
callback once, with `id`, marks the Channel the registry held for `id` as
disconnected with its socket closed, and erases the entry of `id`, leaving every
other entry, every other Channel and the inbound queue as they were. On an `id`
that is not registered it changes nothing and calls nothing. A second
`disconnect(id)`, and the read or write handler of that Channel run with an error
after the first, leave the state of the first: the callback has been called once.
The read and write handlers of a Channel not yet marked disconnected, run with an
error, are `disconnect` of the Connection of that Channel. -/
theorem Server.disconnect_once (s : Server) (id : Connection) :
    (∀ address, s.channels id = some address →
      (s.disconnect id).handlerCalls =
        s.handlerCalls ++ [HandlerCall.handleDisconnect id] ∧
      (s.disconnect id).channels id = none ∧
      (∀ other, other ≠ id → (s.disconnect id).channels other = s.channels other) ∧
      (s.disconnect id).heap address = (s.heap address).map Channel.disconnect ∧
      (∀ q, q ≠ address → (s.disconnect id).heap q = s.heap q) ∧
      (s.disconnect id).incoming = s.incoming ∧
      (s.disconnect id).onRead address true = s.disconnect id ∧
      (s.disconnect id).onWrite address true = s.disconnect id) ∧
    (s.channels id = none → s.disconnect id = s) ∧
    (s.disconnect id).disconnect id = s.disconnect id ∧
    (∀ address ch, s.heap address = some ch → ch.disconnected = false →
      s.onRead address true = s.disconnect ch.connection ∧
      s.onWrite address true = s.disconnect ch.connection) := by
  have hskip : ∀ t : Server, t.channels id = none → t.disconnect id = t := by
    intro t hnone
    simp [Server.disconnect, hnone]
  have herased := Server.disconnect_erases s id
  refine ⟨?_, ?_, ?_, ?_⟩
  · intro address hreg
    have hheap : (s.disconnect id).heap address = (s.heap address).map Channel.disconnect := by
      simp [Server.disconnect, hreg]
    refine ⟨by simp [Server.disconnect, hreg], herased, ?_, hheap, ?_,
      by simp [Server.disconnect, hreg], ?_, ?_⟩
    · intro other hne
      simp [Server.disconnect, hreg, hne]
    · intro q hne
      simp [Server.disconnect, hreg, hne]
    · unfold Server.onRead
      rw [hheap]
      cases s.heap address <;> simp [Channel.disconnect]
    · unfold Server.onWrite
      rw [hheap]
      cases s.heap address <;> simp [Channel.disconnect]
  · exact hskip s
  · exact hskip (s.disconnect id) herased
  · intro address ch hch hdis
    exact ⟨by simp [Server.onRead, hch, hdis], by simp [Server.onWrite, hch, hdis]⟩

/-- Witness for C9: the Channel accepted at address 7 is disconnected twice; the
callbacks recorded are its connect and one disconnect. -/
theorem Server.disconnect_once_witness :
    (((Server.init.onAccept 7 false).disconnect ⟨7⟩).disconnect ⟨7⟩).handlerCalls =
      [HandlerCall.handleConnect ⟨7⟩, HandlerCall.handleDisconnect ⟨7⟩] ∧
    ((Server.init.onAccept 7 false).disconnect ⟨7⟩).channels ⟨7⟩ = none ∧
    (((Server.init.onAccept 7 false).disconnect ⟨7⟩).heap 7).map Channel.disconnected =
      some true := by
  have h := Server.disconnect_once (Server.init.onAccept 7 false) ⟨7⟩
  obtain ⟨h1, h2, -, h4, -⟩ := h.1 7 (by decide)
  refine ⟨?_, h2, ?_⟩
  · rw [h.2.2.1, h1]
    decide
  · rw [h4]
    decide

/-- Claim C10. `Server::receive` returns the whole inbound queue in its queued
order and leaves the inbound queue empty, so that a second `receive` right after
returns the empty sequence; the registry, every Channel object and the record of
callbacks are unchanged. -/
theorem Server.receive_drains (s : Server) :
    s.receive.1 = s.incoming ∧
    s.receive.2.incoming = [] ∧
    s.receive.2.receive.1 = [] ∧
    s.receive.2.channels = s.channels ∧
    s.receive.2.heap = s.heap ∧
    s.receive.2.handlerCalls = s.handlerCalls :=
  ⟨rfl, rfl, rfl, rfl, rfl, rfl⟩


/-! ## Client: receive -/

theorem Client.clientReadStepDelimiter (c : Client) (n : Nat) (wire : List Char)
    (harm : c.readArmed = true) (hopen : c.socketOpen = true)
    (hd : MESSAGE_DELIMITER ∈ c.readBuffer) :
    (c.readStep n wire).2 = wire ∧
      (c.readStep n wire).1.incomingMessage =
        c.incomingMessage ++ (extractMessage c.readBuffer).1 ∧
      (c.readStep n wire).1.readBuffer = (extractMessage c.readBuffer).2 ∧
      (c.readStep n wire).1.readArmed = true ∧
      (c.readStep n wire).1.socketOpen = true := by
  simp [Client.readStep, harm, hopen, hd, Client.completeRead, Client.onRead,
    Client.readMessage]

theorem Client.clientReadStepTransfer (c : Client) (n : Nat) (wire : List Char)
    (harm : c.readArmed = true) (hopen : c.socketOpen = true)
    (hd : MESSAGE_DELIMITER ∉ c.readBuffer) :
    c.readStep n wire =
      ({ c with readBuffer := c.readBuffer ++ wire.take n }, wire.drop n) := by
  simp [Client.readStep, harm, hopen, hd]

theorem Client.clientReadLoopCons (n : Nat) (ns : List Nat) (c : Client) (wire : List Char) :
    Client.readLoop (n :: ns) (c, wire) = Client.readLoop ns (c.readStep n wire) :=
  rfl

theorem Client.readLoop_accumulates (rest : Text) (hrest : MESSAGE_DELIMITER ∉ rest)
    (sizes : List Nat) :
    ∀ (c : Client) (wire : List Char) (ms : List Text),
      c.readArmed = true → c.socketOpen = true →
      c.readBuffer ++ wire = wireBytes ms rest →
      (∀ m ∈ ms, MESSAGE_DELIMITER ∉ m) →
      ∃ k, k ≤ ms.length ∧
        (Client.readLoop sizes (c, wire)).1.incomingMessage =
          c.incomingMessage ++ (ms.take k).flatten ∧
        ((∀ n ∈ sizes, 0 < n) → wire.length + ms.length ≤ sizes.length →
          k = ms.length) := by
  induction sizes with
  | nil =>
    intro c wire ms _ _ _ _
    refine ⟨0, Nat.zero_le _, by simp [Client.readLoop], ?_⟩
    intro _ hlen
    simp only [List.length_nil, Nat.le_zero, Nat.add_eq_zero] at hlen
    exact hlen.2.symm
  | cons n ns ih =>
    intro c wire ms harm hopen hR hms
    by_cases hd : MESSAGE_DELIMITER ∈ c.readBuffer
    · cases ms with
      | nil =>
        exfalso
        have hmem : MESSAGE_DELIMITER ∈ wireBytes [] rest :=
          hR ▸ List.mem_append_left _ hd
        exact hrest (by simpa [wireBytes] using hmem)
      | cons m ms2 =>
        have hm := hms m (List.mem_cons_self _ _)
        have hno := getline_fst_no_delim MESSAGE_DELIMITER c.readBuffer
        have hR2 : (getline MESSAGE_DELIMITER c.readBuffer).1 ++ MESSAGE_DELIMITER ::
            ((getline MESSAGE_DELIMITER c.readBuffer).2 ++ wire) =
            m ++ MESSAGE_DELIMITER :: wireBytes ms2 rest := by
          rw [← wireBytes_cons, ← hR]
          conv_rhs => rw [getline_split MESSAGE_DELIMITER c.readBuffer hd]
          simp
        obtain ⟨e1, e2⟩ := split_unique _ _ _ _ _ hno hm hR2
        obtain ⟨w1, i1, b1, a1, o1⟩ := Client.clientReadStepDelimiter c n wire harm hopen hd
        have hR3 : (c.readStep n wire).1.readBuffer ++ wire = wireBytes ms2 rest := by
          rw [b1]; exact e2
        obtain ⟨k, hk, hinc, hlive⟩ := ih (c.readStep n wire).1 wire ms2 a1 o1 hR3
          (fun x hx => hms x (List.mem_cons_of_mem _ hx))
        have hloop : Client.readLoop (n :: ns) (c, wire) =
            Client.readLoop ns ((c.readStep n wire).1, wire) :=
          (Client.clientReadLoopCons n ns c wire).trans (congrArg _ (Prod.ext rfl w1))
        refine ⟨k + 1, by simpa using hk, ?_, ?_⟩
        · rw [hloop, hinc, i1]
          simp [extractMessage, e1]
        · intro hpos hlen
          have := hlive (fun x hx => hpos x (List.mem_cons_of_mem _ hx))
            (by simp only [List.length_cons] at hlen; omega)
          simp [this]
    · have hstep := Client.clientReadStepTransfer c n wire harm hopen hd
      have hloop := Client.clientReadLoopCons n ns c wire
      rw [hstep] at hloop
      obtain ⟨k, hk, hinc, hlive⟩ := ih
        { c with readBuffer := c.readBuffer ++ wire.take n } (wire.drop n) ms harm hopen
        (by simpa [List.append_assoc] using hR) hms
      refine ⟨k, hk, ?_, ?_⟩
      · rw [hloop, hinc]
      · intro hpos hlen
        by_cases hms0 : ms = []
        · subst hms0
          simpa using hk
        · apply hlive (fun x hx => hpos x (List.mem_cons_of_mem _ hx))
          have hn : 0 < n := hpos n (List.mem_cons_self _ _)
          have hw : wire ≠ [] := by
            intro hw
            obtain ⟨m, ms2, rfl⟩ := List.exists_cons_of_ne_nil hms0
            rw [hw, List.append_nil, wireBytes_cons] at hR
            exact hd (by rw [hR]; simp)
          have hwl : 0 < wire.length := List.length_pos.mpr hw
          simp only [List.length_cons] at hlen
          simp only [List.length_drop]
          omega


theorem Client.readLoop_idle (sizes : List Nat) :
    ∀ (c : Client) (wire : List Char), c.readArmed = false →
      Client.readLoop sizes (c, wire) = (c, wire) := by
  induction sizes with
  | nil => intros; rfl
  | cons n ns ih =>
    intro c wire harm
    have hstep : c.readStep n wire = (c, wire) := by simp [Client.readStep, harm]
    rw [Client.clientReadLoopCons, hstep]
    exact ih c wire harm

theorem Client.readLoop_closed (sizes : List Nat) (c : Client) (wire : List Char)
    (harm : c.readArmed = true) (hclosed : c.socketOpen = false) :
    (Client.readLoop sizes (c, wire)).1.incomingMessage = c.incomingMessage := by
  cases sizes with
  | nil => rfl
  | cons n ns =>
    have hstep : c.readStep n wire = (c.completeRead true 0, wire) := by
      simp [Client.readStep, harm, hclosed]
    rw [Client.clientReadLoopCons, hstep,
      Client.readLoop_idle ns _ wire (by simp [Client.completeRead, Client.onRead,
        Client.disconnect])]
    simp [Client.completeRead, Client.onRead, Client.disconnect]

/-- Claim C11. A Client has just returned from `receive`. The bytes it has not
yet turned into messages, those already in its read buffer followed by those
still on the wire, are the delimiter-free texts `ms`, each followed by the
delimiter, and then a delimiter-free `rest`. Whatever the sizes of the transfers
from the socket, the read handler has reassembled a prefix of `ms`, and `receive`
returns the concatenation of exactly those texts, in arrival order, with no
delimiter and nothing else between them; it leaves the accumulation empty, so
that a `receive` right after it returns the empty text. When a read is
outstanding on an open socket, once the read loop has run for as many steps, each
transferring at least one byte, as there are bytes on the wire and texts,
`receive` returns the concatenation of all of `ms`. -/
theorem Client.receive_concatenates (c : Client) (wire : List Char) (ms : List Text)
    (rest : Text) (sizes : List Nat)
    (hbytes : c.readBuffer ++ wire = wireBytes ms rest)
    (hms : ∀ m ∈ ms, MESSAGE_DELIMITER ∉ m) (hrest : MESSAGE_DELIMITER ∉ rest) :
    ∃ k, k ≤ ms.length ∧
      (Client.readLoop sizes (c.receive.2, wire)).1.receive.1 = (ms.take k).flatten ∧
      (Client.readLoop sizes (c.receive.2, wire)).1.receive.2.incomingMessage = [] ∧
      (Client.readLoop sizes (c.receive.2, wire)).1.receive.2.receive.1 = [] ∧
      (c.readArmed = true → c.socketOpen = true → (∀ n ∈ sizes, 0 < n) →
        wire.length + ms.length ≤ sizes.length →
        (Client.readLoop sizes (c.receive.2, wire)).1.receive.1 = ms.flatten) := by
  cases harm : c.readArmed with
  | false =>
    refine ⟨0, Nat.zero_le _, ?_, rfl, rfl, fun h => absurd h (by simp)⟩
    rw [Client.readLoop_idle sizes c.receive.2 wire harm]
    rfl
  | true =>
    cases hopen : c.socketOpen with
    | false =>
      refine ⟨0, Nat.zero_le _, ?_, rfl, rfl, fun _ h => absurd h (by simp)⟩
      show (Client.readLoop sizes (c.receive.2, wire)).1.incomingMessage = _
      rw [Client.readLoop_closed sizes c.receive.2 wire harm hopen]
      rfl
    | true =>
      obtain ⟨k, hk, hinc, hlive⟩ := Client.readLoop_accumulates rest hrest sizes
        c.receive.2 wire ms harm hopen hbytes hms
      have hret : (Client.readLoop sizes (c.receive.2, wire)).1.receive.1 =
          (ms.take k).flatten := by
        show (Client.readLoop sizes (c.receive.2, wire)).1.incomingMessage = _
        rw [hinc]
        rfl
      refine ⟨k, hk, hret, rfl, rfl, fun _ _ hpos hlen => ?_⟩
      rw [hret, hlive hpos hlen, List.take_length]

/-- Witness for C11: a connected Client has read the first two bytes of "hello"
when `receive` is called; the rest of "hello", then "yo" and the unfinished "x"
are still on the wire. After ten reads the next `receive` returns "helloyo". -/
theorem Client.receive_concatenates_witness :
    ((((Client.new (some [⟨0⟩])).get rfl).completeConnect (fun _ => true)).readStep 2
        ['h', 'e', 'l', 'l', 'o', '\r', 'y', 'o', '\r', 'x']).1.readBuffer = ['h', 'e'] ∧
    (Client.readLoop [3, 1, 1, 1, 1, 1, 1, 1, 1, 1]
        ((((((Client.new (some [⟨0⟩])).get rfl).completeConnect (fun _ => true)).readStep 2
            ['h', 'e', 'l', 'l', 'o', '\r', 'y', 'o', '\r', 'x']).1).receive.2,
          ['l', 'l', 'o', '\r', 'y', 'o', '\r', 'x'])).1.receive.1 =
      ['h', 'e', 'l', 'l', 'o', 'y', 'o'] := by
  refine ⟨by decide, ?_⟩
  obtain ⟨_, _, _, _, _, hall⟩ := Client.receive_concatenates
    ((((Client.new (some [⟨0⟩])).get rfl).completeConnect (fun _ => true)).readStep 2
      ['h', 'e', 'l', 'l', 'o', '\r', 'y', 'o', '\r', 'x']).1
    ['l', 'l', 'o', '\r', 'y', 'o', '\r', 'x']
    [['h', 'e', 'l', 'l', 'o'], ['y', 'o']] ['x'] [3, 1, 1, 1, 1, 1, 1, 1, 1, 1]
    (by decide) (by decide) (by decide)
  exact hall (by decide) (by decide) (by decide) (by decide)

end Networking
